import Mathlib

/-!
Verification of `generate_feed.py` (weeklypedia-feed).

The source builds an RSS 2.0 feed from the Weeklypedia archive:
`parse_issues` scans the archive index HTML with the regular expression
`<a href="(\d{8}/weeklypedia_\d{8}\.html)">([^<]+)</a>`, `extract_content`
pulls the recognised sections out of an issue page, and `generate_rss`
serialises the issue list to XML with `xml.etree.ElementTree`.

The embedding below works over `List Char`.  The regular expressions of
the source contain only literals, counted digit classes, negated
single-character classes and lazy gaps, so each one denotes a
deterministic scan, which is what is implemented here (digits are
modelled as the ASCII decimal digits).  Scanning functions take the
remaining input length as structural fuel so that they compute by
`decide` / `rfl`; one character is consumed per step, so fuel equal to
the input length is exact.
-/

/-- Calendar date as produced by `datetime.strptime(s, "%Y%m%d")`. -/
structure Date where
  year : Nat
  month : Nat
  day : Nat
deriving DecidableEq, Repr

/-- Gregorian leap-year rule used by `datetime`. -/
def isLeap (y : Nat) : Bool :=
  (y % 4 == 0 && y % 100 != 0) || y % 400 == 0

/-- Days in a month of the proleptic Gregorian calendar. -/
def daysInMonth (y m : Nat) : Nat :=
  if m = 2 then (if isLeap y then 29 else 28)
  else if m = 4 ∨ m = 6 ∨ m = 9 ∨ m = 11 then 30
  else 31

/-- Numeric value of a list of ASCII digits. -/
def digitsToNat (l : List Char) : Nat :=
  l.foldl (fun a c => 10 * a + (c.toNat - 48)) 0

/-- `datetime.strptime(s, "%Y%m%d")` on an 8-digit token: first four
digits are the year, then two for the month, two for the day; `none`
models the `ValueError` raised when the fields do not form a valid
calendar date (`datetime` requires `1 <= year`, months `1..12` and days
within the month). -/
def parseDate8 (ds : List Char) : Option Date :=
  if ds.length = 8 ∧ ds.all Char.isDigit then
    let y := digitsToNat (ds.take 4)
    let m := digitsToNat ((ds.drop 4).take 2)
    let d := digitsToNat (ds.drop 6)
    if 1 ≤ y ∧ 1 ≤ m ∧ m ≤ 12 ∧ 1 ≤ d ∧ d ≤ daysInMonth y m then
      some ⟨y, m, d⟩
    else none
  else none

/-- Strip a literal from the head of the input (`none` if it is not
there). -/
def dropLit : List Char → List Char → Option (List Char)
  | [], l => some l
  | _ :: _, [] => none
  | c :: cs, x :: xs => if x = c then dropLit cs xs else none

/-- Split at the first `'>'`: returns the consumed part (up to and
including that `'>'`) and the rest.  This is the deterministic reading
of the regex piece `[^>]*>`. -/
def splitGt : List Char → Option (List Char × List Char)
  | [] => none
  | c :: cs =>
    if c = '>' then some ([c], cs)
    else
      match splitGt cs with
      | some (a, r) => some (c :: a, r)
      | none => none

/-- Split at the first occurrence of a literal: returns the part before
the occurrence and the part after it. -/
def splitLit (lit : List Char) (l : List Char) : Option (List Char × List Char) :=
  match dropLit lit l with
  | some rest => some ([], rest)
  | none =>
    match l with
    | [] => none
    | c :: cs =>
      match splitLit lit cs with
      | some (pre, post) => some (c :: pre, post)
      | none => none

/-- Take exactly `n` ASCII digits from the head of the input, the
deterministic reading of `\d{n}`. -/
def takeDigits (n : Nat) (l : List Char) : Option (List Char × List Char) :=
  let t := l.take n
  if t.length = n ∧ t.all Char.isDigit then some (t, l.drop n) else none

/-- First position with `n` consecutive digits, i.e.
`re.search(r"(\d{n})", s)`; used by `parse_issues` with `n = 8` on the
matched relative path. -/
def searchDigits (n : Nat) : List Char → Option (List Char)
  | [] => if n = 0 then some [] else none
  | c :: cs =>
    match takeDigits n (c :: cs) with
    | some (t, _) => some t
    | none => searchDigits n cs

/-- One attempted match, at the current position, of the index anchor
pattern `<a href="(\d{8}/weeklypedia_\d{8}\.html)">([^<]+)</a>`.
Returns the two groups (relative path, label) and the input remaining
after the match.  The label group `[^<]+` followed by the literal
`</a>` can only denote the maximal non-empty run of characters other
than `'<'`. -/
def matchAnchorAt (l : List Char) : Option (List Char × List Char × List Char) :=
  match dropLit "<a href=\"".toList l with
  | none => none
  | some r1 =>
    match takeDigits 8 r1 with
    | none => none
    | some (d1, r2) =>
      match dropLit "/weeklypedia_".toList r2 with
      | none => none
      | some r3 =>
        match takeDigits 8 r3 with
        | none => none
        | some (d2, r4) =>
          match dropLit ".html\">".toList r4 with
          | none => none
          | some r5 =>
            let lab := r5.takeWhile (fun c => c ≠ '<')
            let r6 := r5.dropWhile (fun c => c ≠ '<')
            if lab = [] then none
            else
              match dropLit "</a>".toList r6 with
              | none => none
              | some rest =>
                some (d1 ++ "/weeklypedia_".toList ++ d2 ++ ".html".toList, lab, rest)

/-- Non-overlapping left-to-right scan of `re.findall` for the anchor
pattern, with the remaining length as fuel (each step consumes at least
one character). -/
def findAnchorsAux : Nat → List Char → List (List Char × List Char)
  | 0, _ => []
  | _ + 1, [] => []
  | fuel + 1, c :: cs =>
    match matchAnchorAt (c :: cs) with
    | some (p, lab, rest) => (p, lab) :: findAnchorsAux fuel rest
    | none => findAnchorsAux fuel cs

/-- `re.findall(pattern, html)` for the anchor pattern of
`parse_issues`: the list of `(path, label)` groups in match order. -/
def findAnchors (l : List Char) : List (List Char × List Char) :=
  findAnchorsAux l.length l

/-- Python whitespace stripped by `str.strip()` (ASCII part). -/
def isPySpace (c : Char) : Bool :=
  c = ' ' || c = '\t' || c = '\n' || c = '\r' || c = '\x0b' || c = '\x0c'

/-- `str.strip()` on a character list. -/
def pyStrip (l : List Char) : List Char :=
  ((l.dropWhile isPySpace).reverse.dropWhile isPySpace).reverse

def BASE_URL : String := "https://weekly.hatnote.com/archive/en/"
def FEED_TITLE : String := "Weeklypedia"
def FEED_DESCRIPTION : String :=
  "The most edited Wikipedia articles and discussions from the last week"
def FEED_LINK : String := "https://weekly.hatnote.com/"

/-- An issue record as built by `parse_issues` (the `content` key is
attached later by the orchestrator; `parse_issues` leaves it absent). -/
structure Issue where
  url : String
  title : String
  date : Date
  date_text : String
  content : Option String
deriving DecidableEq, Repr

/-- The body of the `for path, date_text in matches` loop of
`parse_issues`: re-search the first 8-digit run of the path, parse it
strictly as `YYYYMMDD`, and build the record; `none` models the
`continue` on `ValueError` (and the no-8-digit-run guard). -/
def mkIssue (m : List Char × List Char) : Option Issue :=
  match searchDigits 8 m.1 with
  | none => none
  | some ds =>
    match parseDate8 ds with
    | none => none
    | some d =>
      some { url := BASE_URL ++ String.mk m.1
           , title := "Weeklypedia - " ++ String.mk (pyStrip m.2)
           , date := d
           , date_text := String.mk (pyStrip m.2)
           , content := none }

/-- `parse_issues(html)`: scan the index for anchors, then accumulate
one record per match whose date token parses. -/
def parse_issues (html : String) : List Issue :=
  (findAnchors html.toList).foldl
    (fun issues m =>
      match mkIssue m with
      | some i => issues ++ [i]
      | none => issues)
    []

/-- `re.search(r"<body[^>]*>(.*?)</body>", html, re.DOTALL)`: the text
between the first `>` following the first `<body` and the first
`</body>` after that (with the usual monotonicity of these literal
scans, trying later `<body` positions can never succeed when the first
fails, so the leftmost-match rule reduces to this chain). -/
def bodySearch (l : List Char) : Option (List Char) :=
  match splitLit "<body".toList l with
  | none => none
  | some (_, r1) =>
    match splitGt r1 with
    | none => none
    | some (_, r2) =>
      match splitLit "</body>".toList r2 with
      | none => none
      | some (body, _) => some body

/-- One attempted match, at the current position, of the section
pattern `<h2[^>]*>([^<]+)</h2>(.*?<ol[^>]*>.*?</ol>)` under `re.DOTALL`.
Returns the two groups (raw heading text, gap-plus-list content) and
the input remaining after the match. -/
def matchSectionAt (l : List Char) : Option (List Char × List Char × List Char) :=
  match dropLit "<h2".toList l with
  | none => none
  | some r1 =>
    match splitGt r1 with
    | none => none
    | some (_, r2) =>
      let t := r2.takeWhile (fun c => c ≠ '<')
      let r3 := r2.dropWhile (fun c => c ≠ '<')
      if t = [] then none
      else
        match dropLit "</h2>".toList r3 with
        | none => none
        | some r4 =>
          match splitLit "<ol".toList r4 with
          | none => none
          | some (pre, r5) =>
            match splitGt r5 with
            | none => none
            | some (a, r6) =>
              match splitLit "</ol>".toList r6 with
              | none => none
              | some (mid, rest) =>
                some (t, pre ++ "<ol".toList ++ a ++ mid ++ "</ol>".toList, rest)

/-- `re.findall` scan for the section pattern, with the remaining
length as fuel. -/
def findSectionsAux : Nat → List Char → List (List Char × List Char)
  | 0, _ => []
  | _ + 1, [] => []
  | fuel + 1, c :: cs =>
    match matchSectionAt (c :: cs) with
    | some (t, g, rest) => (t, g) :: findSectionsAux fuel rest
    | none => findSectionsAux fuel cs

/-- All `(heading text, gap-plus-list)` groups of the section pattern
inside the body, in match order. -/
def findSections (l : List Char) : List (List Char × List Char) :=
  findSectionsAux l.length l

/-- `re.search(r"<ol[^>]*>.*?</ol>", content, re.DOTALL).group(0)`:
re-isolate just the ordered-list element from a captured
gap-plus-list. -/
def olSearch (l : List Char) : Option (List Char) :=
  match splitLit "<ol".toList l with
  | none => none
  | some (_, r1) =>
    match splitGt r1 with
    | none => none
    | some (a, r2) =>
      match splitLit "</ol>".toList r2 with
      | none => none
      | some (mid, _) => some ("<ol".toList ++ a ++ mid ++ "</ol>".toList)

/-- The three recognised section names of `extract_content`. -/
def recognizedSections : List (List Char) :=
  ["Articles".toList, "New Articles".toList, "Discussions".toList]

/-- The body of the `for title, content in matches` loop of
`extract_content`: strip the heading, keep it only if it is one of the
recognised names, then wrap the re-isolated list element in an `<h3>`
heading. -/
def sectionOf (m : List Char × List Char) : Option String :=
  let t := pyStrip m.1
  if t ∈ recognizedSections then
    match olSearch m.2 with
    | none => none
    | some ol => some ("<h3>" ++ String.mk t ++ "</h3>\n" ++ String.mk ol)
  else none

/-- `"\n".join(sections)`. -/
def joinNl : List String → String
  | [] => ""
  | [s] => s
  | s :: t :: rest => s ++ "\n" ++ joinNl (t :: rest)

/-- `extract_content(html)`: isolate the body, collect the wrapped
recognised sections in match order, and join them with a line break;
`none` models the two `return None` paths. -/
def extract_content (html : String) : Option String :=
  match bodySearch html.toList with
  | none => none
  | some body =>
    let sections := (findSections body).foldl
      (fun acc m =>
        match sectionOf m with
        | some s => acc ++ [s]
        | none => acc)
      []
    if sections.isEmpty then none else some (joinNl sections)

/-- An `xml.etree.ElementTree` element: tag, attributes, text, and
child elements (tails are never used by `generate_rss`). -/
inductive XNode where
  | elem (tag : String) (attrs : List (String × String)) (text : Option String) (children : List XNode)

/-- `ElementTree`'s `_escape_cdata` on one character. -/
def escChar (c : Char) : String :=
  if c = '&' then "&amp;"
  else if c = '<' then "&lt;"
  else if c = '>' then "&gt;"
  else String.mk [c]

/-- `ElementTree`'s `_escape_cdata`: text serialisation escapes markup
characters. -/
def escCdata (s : String) : String :=
  String.join (s.toList.map escChar)

/-- `ElementTree`'s `_escape_attrib` on one character. -/
def escAttrChar (c : Char) : String :=
  if c = '&' then "&amp;"
  else if c = '<' then "&lt;"
  else if c = '>' then "&gt;"
  else if c = '\x22' then "&quot;"
  else if c = '\r' then "&#13;"
  else if c = '\n' then "&#10;"
  else if c = '\t' then "&#09;"
  else String.mk [c]

/-- `ElementTree`'s `_escape_attrib`. -/
def escAttr (s : String) : String :=
  String.join (s.toList.map escAttrChar)

/-- Python truthiness of an element's optional `.text`. -/
def textTruthy : Option String → Bool
  | some s => s ≠ ""
  | none => false

mutual

/-- `ElementTree._serialize_xml` (default `short_empty_elements`):
`<tag attrs />` when there is no truthy text and no child, otherwise
`<tag attrs>text children</tag>` with text escaped by
`_escape_cdata`; this is `ET.tostring(node, encoding="unicode")` for
the trees `generate_rss` builds (no tails, no comments). -/
def serializeNode : XNode → String
  | XNode.elem tag attrs text children =>
    let attrStr := (attrs.map (fun p => " " ++ p.1 ++ "=\x22" ++ escAttr p.2 ++ "\x22")).foldl
      (fun a b => a ++ b) ""
    let txt := match text with | some t => escCdata t | none => ""
    if textTruthy text || !children.isEmpty then
      "<" ++ tag ++ attrStr ++ ">" ++ txt ++ serializeChildren children ++ "</" ++ tag ++ ">"
    else
      "<" ++ tag ++ attrStr ++ " />"

/-- Serialisation of a list of child elements, in order. -/
def serializeChildren : List XNode → String
  | [] => ""
  | x :: xs => serializeNode x ++ serializeChildren xs

end

/-- A leaf element whose `.text` was assigned, as in
`ET.SubElement(parent, tag).text = text`. -/
def xleaf (tag text : String) : XNode :=
  XNode.elem tag [] (some text) []

/-- Days of the proleptic Gregorian calendar before January 1 of the
year, as in `datetime.toordinal`. -/
def daysBeforeYear (y : Nat) : Nat :=
  365 * (y - 1) + (y - 1) / 4 - (y - 1) / 100 + (y - 1) / 400

/-- Days of the year before the first of the month. -/
def daysBeforeMonth (y m : Nat) : Nat :=
  ((List.range (m - 1)).map (fun k => daysInMonth y (k + 1))).sum

/-- `datetime.toordinal`: day 1 is January 1 of year 1 (a Monday). -/
def toOrdinal (d : Date) : Nat :=
  daysBeforeYear d.year + daysBeforeMonth d.year d.month + d.day

/-- `%a` names indexed by `toOrdinal % 7` (ordinal 1 is a Monday). -/
def weekdayNames : List String :=
  ["Sun", "Mon", "Tue", "Wed", "Thu", "Fri", "Sat"]

/-- `%b` names. -/
def monthNames : List String :=
  ["Jan", "Feb", "Mar", "Apr", "May", "Jun",
   "Jul", "Aug", "Sep", "Oct", "Nov", "Dec"]

/-- `%d`: zero-padded two-digit day. -/
def pad2 (n : Nat) : String :=
  if n < 10 then "0" ++ toString n else toString n

/-- `date.strftime("%a, %d %b %Y 12:00:00 GMT")` (glibc `%Y` prints
the year unpadded). -/
def fmtDate (d : Date) : String :=
  weekdayNames.getD (toOrdinal d % 7) "" ++ ", " ++ pad2 d.day ++ " "
    ++ monthNames.getD (d.month - 1) "" ++ " " ++ toString d.year
    ++ " 12:00:00 GMT"

/-- The fallback description sentence of `generate_rss` (the two
f-string halves of the source concatenated). -/
def fallbackDescription (i : Issue) : String :=
  "Weekly summary of the most edited Wikipedia articles and discussions for the week ending "
    ++ i.date_text ++ "."

/-- The `description` element of one item: the raw content when the
`content` key is present and truthy, the fallback sentence otherwise. -/
def descriptionNode (i : Issue) : XNode :=
  match i.content with
  | some c => if c ≠ "" then xleaf "description" c else xleaf "description" (fallbackDescription i)
  | none => xleaf "description" (fallbackDescription i)

/-- One `<item>` element of `generate_rss`. -/
def mkItem (i : Issue) : XNode :=
  XNode.elem "item" [] none
    [ xleaf "title" i.title
    , xleaf "link" i.url
    , xleaf "guid" i.url
    , xleaf "pubDate" (fmtDate i.date)
    , descriptionNode i ]

/-- The `<channel>` element: four static fields, then `lastBuildDate`
from the first issue's date when the list is non-empty, then the items
for the first `max_items` issues. -/
def channelNode (issues : List Issue) (max_items : Nat) : XNode :=
  let base := [ xleaf "title" FEED_TITLE
              , xleaf "link" FEED_LINK
              , xleaf "description" FEED_DESCRIPTION
              , xleaf "language" "en" ]
  let withDate :=
    match issues with
    | [] => base
    | i :: _ => base ++ [xleaf "lastBuildDate" (fmtDate i.date)]
  XNode.elem "channel" [] none (withDate ++ (issues.take max_items).map mkItem)

/-- The element tree built by `generate_rss` before `ET.tostring`. -/
def rssTree (issues : List Issue) (max_items : Nat) : XNode :=
  XNode.elem "rss" [("version", "2.0")] none [channelNode issues max_items]

/-- `generate_rss(issues, max_items=50)`: serialise the tree and
prepend the XML declaration. -/
def generate_rss (issues : List Issue) (max_items : Nat := 50) : String :=
  "<?xml version=\x221.0\x22 encoding=\x22UTF-8\x22?>\n"
    ++ serializeNode (rssTree issues max_items)

/-- Children of an element. -/
def childrenOf : XNode → List XNode
  | XNode.elem _ _ _ ch => ch

/-- Tag of an element. -/
def tagOf : XNode → String
  | XNode.elem t _ _ _ => t

/-- Concrete index inputs used by the counterexamples and witnesses
below. -/
def exDiffTokens : String :=
  "<a href=\x2220250102/weeklypedia_20250109.html\x22>x</a>"

def exPaddedLabel : String :=
  "<a href=\x2220250102/weeklypedia_20250102.html\x22> Jan 2, 2025 </a>"

def exMixedValidity : String :=
  "<a href=\x2299999999/weeklypedia_99999999.html\x22>bad</a><a href=\x2220240229/weeklypedia_20240229.html\x22>leap</a>"

def exThreeAnchors : String :=
  "<a href=\x2220250101/weeklypedia_20250101.html\x22>A</a><a href=\x2220250108/weeklypedia_20250108.html\x22>B</a><a href=\x2220250115/weeklypedia_20250115.html\x22>C</a>"

def exDuplicated : String :=
  "<a href=\x2220250102/weeklypedia_20250102.html\x22>dup</a><a href=\x2220250102/weeklypedia_20250102.html\x22>dup</a>"

/-- The single record `parse_issues` extracts from `exMixedValidity`. -/
def exLeapIssue : Issue :=
  { url := BASE_URL ++ "20240229/weeklypedia_20240229.html"
  , title := "Weeklypedia - leap"
  , date := ⟨2024, 2, 29⟩
  , date_text := "leap"
  , content := none }

/-- The record `parse_issues` extracts from `exDiffTokens`. -/
def exDiffIssue : Issue :=
  { url := BASE_URL ++ "20250102/weeklypedia_20250109.html"
  , title := "Weeklypedia - x"
  , date := ⟨2025, 1, 2⟩
  , date_text := "x"
  , content := none }

/-- Concrete issue page used by the content-extraction witnesses. -/
def exIssuePage : String :=
  "<body class=\x22x\x22><h2>Articles</h2><p>gap</p><ol class=\x22a\x22><li>x</li></ol><h2>Random Section</h2><ol><li>y</li></ol><h2> Discussions </h2>junk<ol><li>z</li></ol></body>"

/-- Concrete issue records used by the feed-builder theorems. -/
def exContentIssue : Issue :=
  { url := "u", title := "t", date := ⟨2025, 1, 2⟩, date_text := "Jan 2, 2025"
  , content := some "<h3>Articles</h3>\n<ol><li>x</li></ol>" }

def exNoContentIssue : Issue :=
  { url := "u", title := "t", date := ⟨2025, 1, 2⟩, date_text := "Jan 2, 2025"
  , content := none }

/-- The record `parse_issues` extracts from `exPaddedLabel`. -/
def exPaddedIssue : Issue :=
  { url := BASE_URL ++ "20250102/weeklypedia_20250102.html"
  , title := "Weeklypedia - Jan 2, 2025"
  , date := ⟨2025, 1, 2⟩
  , date_text := "Jan 2, 2025"
  , content := none }

/-- The fragment `extract_content` returns on `exIssuePage`. -/
def exFragment : String :=
  "<h3>Articles</h3>\n<ol class=\x22a\x22><li>x</li></ol>\n<h3>Discussions</h3>\n<ol><li>z</li></ol>"

/-- The four static channel fields of `generate_rss`. -/
def staticChannelFields : List XNode :=
  [ xleaf "title" FEED_TITLE
  , xleaf "link" FEED_LINK
  , xleaf "description" FEED_DESCRIPTION
  , xleaf "language" "en" ]

/-- The document `generate_rss` produces on an empty issue list. -/
def emptyFeedXml : String :=
  "<?xml version=\x221.0\x22 encoding=\x22UTF-8\x22?>\n<rss version=\x222.0\x22><channel><title>Weeklypedia</title><link>https://weekly.hatnote.com/</link><description>The most edited Wikipedia articles and discussions from the last week</description><language>en</language></channel></rss>"

/-- The document `generate_rss` produces on `[exContentIssue]`: the
content markup is escaped as text by the serialiser. -/
def exEscapedFeedXml : String :=
  "<?xml version=\x221.0\x22 encoding=\x22UTF-8\x22?>\n<rss version=\x222.0\x22><channel><title>Weeklypedia</title><link>https://weekly.hatnote.com/</link><description>The most edited Wikipedia articles and discussions from the last week</description><language>en</language><lastBuildDate>Thu, 02 Jan 2025 12:00:00 GMT</lastBuildDate><item><title>t</title><link>u</link><guid>u</guid><pubDate>Thu, 02 Jan 2025 12:00:00 GMT</pubDate><description>&lt;h3&gt;Articles&lt;/h3&gt;\n&lt;ol&gt;&lt;li&gt;x&lt;/li&gt;&lt;/ol&gt;</description></item></channel></rss>"

/-- The document `generate_rss` produces on `[exNoContentIssue]`: the
fallback description sentence. -/
def exNoContentFeedXml : String :=
  "<?xml version=\x221.0\x22 encoding=\x22UTF-8\x22?>\n<rss version=\x222.0\x22><channel><title>Weeklypedia</title><link>https://weekly.hatnote.com/</link><description>The most edited Wikipedia articles and discussions from the last week</description><language>en</language><lastBuildDate>Thu, 02 Jan 2025 12:00:00 GMT</lastBuildDate><item><title>t</title><link>u</link><guid>u</guid><pubDate>Thu, 02 Jan 2025 12:00:00 GMT</pubDate><description>Weekly summary of the most edited Wikipedia articles and discussions for the week ending Jan 2, 2025.</description></item></channel></rss>"

/-- Canonical shape of the second group captured by the section
pattern: a gap, the `<ol` opening, attribute characters, `>`, the list
contents, and the `</ol>` closing. -/
def olShape (pre b mid : List Char) : List Char :=
  pre ++ ("<ol".toList ++ (b ++ ('>' :: (mid ++ "</ol>".toList))))

/-! ### Generic lemmas about the scanning primitives -/

theorem foldl_opt_append {α β : Type} (f : α → Option β) (l : List α) :
    ∀ acc : List β,
      l.foldl (fun a x => match f x with | some b => a ++ [b] | none => a) acc
        = acc ++ l.filterMap f := by
  induction l with
  | nil => intro acc; simp
  | cons x xs ih =>
    intro acc
    cases h : f x <;> simp [List.foldl_cons, List.filterMap_cons, h, ih]

theorem dropLit_decomp :
    ∀ (lit l r : List Char), dropLit lit l = some r → l = lit ++ r := by
  intro lit
  induction lit with
  | nil =>
    intro l r h
    simp only [dropLit, Option.some.injEq] at h
    simp [h]
  | cons c cs ih =>
    intro l r h
    cases l with
    | nil => simp [dropLit] at h
    | cons x xs =>
      simp only [dropLit] at h
      split at h
      · rename_i hx
        have := ih xs r h
        simp [hx, this]
      · exact absurd h (by simp)

theorem dropLit_self :
    ∀ (lit rest : List Char), dropLit lit (lit ++ rest) = some rest := by
  intro lit
  induction lit with
  | nil => intro rest; simp [dropLit]
  | cons c cs ih => intro rest; simp [dropLit, ih]

theorem splitGt_decomp :
    ∀ (l a r : List Char), splitGt l = some (a, r) →
      l = a ++ r ∧ ∃ b, a = b ++ ['>'] := by
  intro l
  induction l with
  | nil => intro a r h; simp [splitGt] at h
  | cons c cs ih =>
    intro a r h
    simp only [splitGt] at h
    split at h
    · rename_i hc
      obtain ⟨ha, hr⟩ : [c] = a ∧ cs = r := by
        constructor <;> [exact congrArg Prod.fst (Option.some.inj h);
          exact congrArg Prod.snd (Option.some.inj h)]
      subst hc
      exact ⟨by simp [← ha, hr], [], by simp [← ha]⟩
    · rename_i hc
      cases hm : splitGt cs with
      | none => rw [hm] at h; exact absurd h (by simp)
      | some p =>
        obtain ⟨a2, r2⟩ := p
        rw [hm] at h
        obtain ⟨ha, hr⟩ : c :: a2 = a ∧ r2 = r := by
          constructor <;> [exact congrArg Prod.fst (Option.some.inj h);
            exact congrArg Prod.snd (Option.some.inj h)]
        obtain ⟨hcs, b, hb⟩ := ih a2 r2 hm
        subst ha hr
        exact ⟨by simp [hcs], c :: b, by simp [hb]⟩

theorem splitGt_exists :
    ∀ (x y : List Char), splitGt (x ++ '>' :: y) ≠ none := by
  intro x
  induction x with
  | nil => intro y; simp [splitGt]
  | cons c cs ih =>
    intro y
    simp only [List.cons_append, splitGt]
    split
    · simp
    · cases hm : splitGt (cs ++ '>' :: y) with
      | none => exact absurd hm (ih y)
      | some p => simp

theorem splitGt_suffix :
    ∀ (x y l a r : List Char), splitGt l = some (a, r) → l = x ++ '>' :: y →
      y <:+ r := by
  intro x
  induction x with
  | nil =>
    intro y l a r h hl
    subst hl
    simp only [List.nil_append] at h
    simp [splitGt] at h
    obtain ⟨-, h2⟩ := h
    simp [← h2]
  | cons c cs ih =>
    intro y l a r h hl
    subst hl
    simp only [List.cons_append] at h
    rw [splitGt] at h
    split at h
    · simp only [Option.some.injEq, Prod.mk.injEq] at h
      obtain ⟨-, h2⟩ := h
      exact h2 ▸ ⟨cs ++ ['>'], by simp⟩
    · split at h
      · rename_i a2 r2 heq
        simp only [Option.some.injEq, Prod.mk.injEq] at h
        obtain ⟨-, h2⟩ := h
        exact h2 ▸ ih y (cs ++ '>' :: y) a2 r2 heq rfl
      · exact absurd h (by simp)

theorem suffix_of_suffix_length_le {s t l : List Char}
    (hs : s <:+ l) (ht : t <:+ l) (h : s.length ≤ t.length) : s <:+ t := by
  rw [← List.reverse_prefix] at hs ht ⊢
  exact List.prefix_of_prefix_length_le hs ht (by simpa using h)

theorem splitLit_decomp :
    ∀ (lit l pre post : List Char), splitLit lit l = some (pre, post) →
      l = pre ++ lit ++ post := by
  intro lit l
  induction l with
  | nil =>
    intro pre post h
    simp only [splitLit] at h
    cases hm : dropLit lit [] with
    | none => rw [hm] at h; exact absurd h (by simp)
    | some rest =>
      rw [hm] at h
      obtain ⟨hp, hq⟩ : [] = pre ∧ rest = post := by
        constructor <;> [exact congrArg Prod.fst (Option.some.inj h);
          exact congrArg Prod.snd (Option.some.inj h)]
      have := dropLit_decomp lit [] rest hm
      simp [← hp, ← hq, ← this]
  | cons c cs ih =>
    intro pre post h
    simp only [splitLit] at h
    cases hm : dropLit lit (c :: cs) with
    | some rest =>
      rw [hm] at h
      obtain ⟨hp, hq⟩ : [] = pre ∧ rest = post := by
        constructor <;> [exact congrArg Prod.fst (Option.some.inj h);
          exact congrArg Prod.snd (Option.some.inj h)]
      have := dropLit_decomp lit (c :: cs) rest hm
      simp [← hp, ← hq, ← this]
    | none =>
      rw [hm] at h
      cases hm2 : splitLit lit cs with
      | none => rw [hm2] at h; exact absurd h (by simp)
      | some p =>
        obtain ⟨p2, q2⟩ := p
        rw [hm2] at h
        obtain ⟨hp, hq⟩ : c :: p2 = pre ∧ q2 = post := by
          constructor <;> [exact congrArg Prod.fst (Option.some.inj h);
            exact congrArg Prod.snd (Option.some.inj h)]
        have := ih p2 q2 hm2
        simp [← hp, ← hq, this]

theorem splitLit_head :
    ∀ (lit y : List Char), splitLit lit (lit ++ y) = some ([], y) := by
  intro lit y
  have hd : dropLit lit (lit ++ y) = some y := dropLit_self lit y
  cases hl : lit ++ y with
  | nil => rw [hl] at hd; simp [splitLit, hd]
  | cons c cs => rw [hl] at hd; simp [splitLit, hd]

theorem splitLit_exists :
    ∀ (lit x y : List Char), splitLit lit (x ++ lit ++ y) ≠ none := by
  intro lit x
  induction x with
  | nil =>
    intro y
    simp [splitLit_head]
  | cons c cs ih =>
    intro y
    simp only [List.cons_append]
    rw [splitLit]
    cases hd : dropLit lit (c :: (cs ++ lit ++ y)) with
    | some rest => simp
    | none =>
      cases hm2 : splitLit lit (cs ++ lit ++ y) with
      | none => exact absurd hm2 (ih y)
      | some p =>
        obtain ⟨p1, p2⟩ := p
        simp only [List.append_assoc] at hm2 ⊢
        simp [hm2]

theorem splitLit_suffix :
    ∀ (lit x y l pre post : List Char), splitLit lit l = some (pre, post) →
      l = x ++ lit ++ y → y <:+ post := by
  intro lit x
  induction x with
  | nil =>
    intro y l pre post h hl
    subst hl
    simp only [List.nil_append] at h
    rw [splitLit_head] at h
    simp only [Option.some.injEq, Prod.mk.injEq] at h
    obtain ⟨-, h2⟩ := h
    simp [← h2]
  | cons c cs ih =>
    intro y l pre post h hl
    subst hl
    simp only [List.cons_append] at h
    rw [splitLit] at h
    cases hm : dropLit lit (c :: (cs ++ lit ++ y)) with
    | some rest =>
      rw [hm] at h
      simp only [Option.some.injEq, Prod.mk.injEq] at h
      obtain ⟨-, hq⟩ := h
      have hdec := dropLit_decomp _ _ _ hm
      have hsy : y <:+ c :: (cs ++ lit ++ y) := ⟨c :: cs ++ lit, by simp⟩
      have hsr : post <:+ c :: (cs ++ lit ++ y) := by
        rw [hdec, ← hq]
        exact ⟨lit, rfl⟩
      apply suffix_of_suffix_length_le hsy hsr
      have hlen := congrArg List.length hdec
      simp only [List.length_cons, List.length_append] at hlen
      rw [← hq]
      omega
    | none =>
      rw [hm] at h
      cases hm2 : splitLit lit (cs ++ lit ++ y) with
      | none => rw [hm2] at h; exact absurd h (by simp)
      | some p =>
        obtain ⟨p2, q2⟩ := p
        rw [hm2] at h
        simp only [Option.some.injEq, Prod.mk.injEq] at h
        obtain ⟨-, hq⟩ := h
        exact hq ▸ ih y (cs ++ lit ++ y) p2 q2 hm2 rfl

/-! ### Characterisations of the pattern matchers -/

theorem takeDigits_some {n : Nat} {l t r : List Char}
    (h : takeDigits n l = some (t, r)) :
    t = l.take n ∧ r = l.drop n ∧ t.length = n ∧ t.all Char.isDigit := by
  simp only [takeDigits] at h
  split at h
  · rename_i hc
    simp only [Option.some.injEq, Prod.mk.injEq] at h
    obtain ⟨h1, h2⟩ := h
    exact ⟨h1.symm, h2.symm, h1 ▸ hc.1, h1 ▸ hc.2⟩
  · exact absurd h (by simp)

theorem olSearch_shape (pre b mid : List Char) :
    olSearch (olShape pre b mid) ≠ none := by
  have hex1 := splitLit_exists "<ol".toList pre (b ++ '>' :: (mid ++ "</ol>".toList))
  have heq1 : pre ++ "<ol".toList ++ (b ++ '>' :: (mid ++ "</ol>".toList))
      = olShape pre b mid := by
    simp [olShape, List.append_assoc]
  rw [heq1] at hex1
  unfold olSearch
  cases hm1 : splitLit "<ol".toList (olShape pre b mid) with
  | none => exact absurd hm1 hex1
  | some q =>
    obtain ⟨p1, r1⟩ := q
    have hsuf1 : (b ++ '>' :: (mid ++ "</ol>".toList)) <:+ r1 :=
      splitLit_suffix "<ol".toList pre _ _ _ _ hm1 (by simp [olShape, List.append_assoc])
    obtain ⟨E, hE⟩ := hsuf1
    have hex2 : splitGt r1 ≠ none := by
      rw [← hE]
      have h2 := splitGt_exists (E ++ b) (mid ++ "</ol>".toList)
      simpa [List.append_assoc] using h2
    cases hm2 : splitGt r1 with
    | none => exact absurd hm2 hex2
    | some q2 =>
      obtain ⟨a2, r2⟩ := q2
      have hsuf2 : (mid ++ "</ol>".toList) <:+ r2 :=
        splitGt_suffix (E ++ b) _ _ _ _ hm2 (by rw [← hE]; simp [List.append_assoc])
      obtain ⟨F, hF⟩ := hsuf2
      have hex3 : splitLit "</ol>".toList r2 ≠ none := by
        rw [← hF]
        have h3 := splitLit_exists "</ol>".toList (F ++ mid) []
        simpa [List.append_assoc] using h3
      cases hm3 : splitLit "</ol>".toList r2 with
      | none => exact absurd hm3 hex3
      | some q3 =>
        obtain ⟨m3, p3⟩ := q3
        have hm3b : splitLit ['<', '/', 'o', 'l', '>'] r2 = some (m3, p3) := hm3
        simp [hm2, hm3b]

theorem matchAnchorAt_some {l p lab rest : List Char}
    (h : matchAnchorAt l = some (p, lab, rest)) :
    (∃ d1 d2, p = d1 ++ "/weeklypedia_".toList ++ d2 ++ ".html".toList ∧
      d1.length = 8 ∧ d1.all Char.isDigit ∧ d2.length = 8 ∧ d2.all Char.isDigit) ∧
      lab ≠ [] := by
  unfold matchAnchorAt at h
  split at h
  · exact absurd h (by simp)
  · split at h
    · exact absurd h (by simp)
    · rename_i r1 d1 r2 h2
      split at h
      · exact absurd h (by simp)
      · split at h
        · exact absurd h (by simp)
        · rename_i r3 d2 r4 h4
          split at h
          · exact absurd h (by simp)
          · dsimp only at h
            split at h
            · exact absurd h (by simp)
            · rename_i hlab
              split at h
              · exact absurd h (by simp)
              · simp only [Option.some.injEq, Prod.mk.injEq] at h
                obtain ⟨hp, hl, hr⟩ := h
                obtain ⟨-, -, hd1len, hd1dig⟩ := takeDigits_some h2
                obtain ⟨-, -, hd2len, hd2dig⟩ := takeDigits_some h4
                exact ⟨⟨d1, d2, hp.symm, hd1len, hd1dig, hd2len, hd2dig⟩, hl ▸ hlab⟩

theorem matchSectionAt_some {l t c rest : List Char}
    (h : matchSectionAt l = some (t, c, rest)) :
    ∃ pre b mid, c = olShape pre b mid := by
  unfold matchSectionAt at h
  split at h
  · exact absurd h (by simp)
  · split at h
    · exact absurd h (by simp)
    · dsimp only at h
      split at h
      · exact absurd h (by simp)
      · split at h
        · exact absurd h (by simp)
        · split at h
          · exact absurd h (by simp)
          · rename_i x5 pre5 r5 hol
            split at h
            · exact absurd h (by simp)
            · rename_i x6 a r6 hgt
              split at h
              · exact absurd h (by simp)
              · rename_i x7 mid2 rest2 hsplit
                simp only [Option.some.injEq, Prod.mk.injEq] at h
                obtain ⟨-, hc, -⟩ := h
                obtain ⟨-, b, hb⟩ := splitGt_decomp _ _ _ hgt
                refine ⟨pre5, b, mid2, ?_⟩
                rw [← hc, hb]
                simp [olShape, List.append_assoc]

theorem findAnchorsAux_mem :
    ∀ (fuel : Nat) (l : List Char) (q : List Char × List Char),
      q ∈ findAnchorsAux fuel l →
      ∃ l2 rest, matchAnchorAt l2 = some (q.1, q.2, rest) := by
  intro fuel
  induction fuel with
  | zero => intro l q hq; simp [findAnchorsAux] at hq
  | succ n ih =>
    intro l q hq
    cases l with
    | nil => simp [findAnchorsAux] at hq
    | cons c cs =>
      rw [findAnchorsAux] at hq
      cases hm : matchAnchorAt (c :: cs) with
      | some trip =>
        obtain ⟨p, lab, rest⟩ := trip
        rw [hm] at hq
        rcases List.mem_cons.mp hq with h1 | h2
        · exact ⟨c :: cs, rest, by rw [hm, h1]⟩
        · exact ih rest q h2
      | none =>
        rw [hm] at hq
        exact ih cs q hq

theorem findAnchors_mem {l : List Char} {q : List Char × List Char}
    (hq : q ∈ findAnchors l) :
    ∃ l2 rest, matchAnchorAt l2 = some (q.1, q.2, rest) :=
  findAnchorsAux_mem l.length l q hq

theorem findSectionsAux_mem :
    ∀ (fuel : Nat) (l : List Char) (q : List Char × List Char),
      q ∈ findSectionsAux fuel l →
      ∃ l2 rest, matchSectionAt l2 = some (q.1, q.2, rest) := by
  intro fuel
  induction fuel with
  | zero => intro l q hq; simp [findSectionsAux] at hq
  | succ n ih =>
    intro l q hq
    cases l with
    | nil => simp [findSectionsAux] at hq
    | cons c cs =>
      rw [findSectionsAux] at hq
      cases hm : matchSectionAt (c :: cs) with
      | some trip =>
        obtain ⟨t, g, rest⟩ := trip
        rw [hm] at hq
        rcases List.mem_cons.mp hq with h1 | h2
        · exact ⟨c :: cs, rest, by rw [hm, h1]⟩
        · exact ih rest q h2
      | none =>
        rw [hm] at hq
        exact ih cs q hq

theorem findSections_mem {l : List Char} {q : List Char × List Char}
    (hq : q ∈ findSections l) :
    ∃ l2 rest, matchSectionAt l2 = some (q.1, q.2, rest) :=
  findSectionsAux_mem l.length l q hq

theorem parseDate8_valid {ds : List Char} {d : Date}
    (h : parseDate8 ds = some d) :
    1 ≤ d.year ∧ 1 ≤ d.month ∧ d.month ≤ 12 ∧ 1 ≤ d.day ∧
      d.day ≤ daysInMonth d.year d.month := by
  unfold parseDate8 at h
  split at h
  · dsimp only at h
    split at h
    · rename_i hc
      simp only [Option.some.injEq] at h
      subst h
      exact hc
    · exact absurd h (by simp)
  · exact absurd h (by simp)

theorem searchDigits_head {d1 rest : List Char}
    (h8 : d1.length = 8) (hd : d1.all Char.isDigit) :
    searchDigits 8 (d1 ++ rest) = some d1 := by
  have ht : takeDigits 8 (d1 ++ rest) = some (d1, rest) := by
    unfold takeDigits
    have htake : (d1 ++ rest).take 8 = d1 := by rw [← h8]; exact List.take_left _ _
    have hdrop : (d1 ++ rest).drop 8 = rest := by rw [← h8]; exact List.drop_left _ _
    simp [htake, hdrop, h8, hd]
  cases d1 with
  | nil => simp at h8
  | cons c cs =>
    rw [List.cons_append] at ht ⊢
    rw [searchDigits, ht]

theorem mkIssue_some {m : List Char × List Char} {i : Issue}
    (h : mkIssue m = some i) :
    (∃ ds, searchDigits 8 m.1 = some ds ∧ parseDate8 ds = some i.date) ∧
    i.url = BASE_URL ++ String.mk m.1 ∧
    i.title = "Weeklypedia - " ++ String.mk (pyStrip m.2) ∧
    i.date_text = String.mk (pyStrip m.2) ∧
    i.content = none := by
  unfold mkIssue at h
  split at h
  · exact absurd h (by simp)
  · rename_i x1 ds hds
    split at h
    · exact absurd h (by simp)
    · rename_i x2 d hd
      simp only [Option.some.injEq] at h
      subst h
      exact ⟨⟨ds, hds, hd⟩, rfl, rfl, rfl, rfl⟩

theorem mkIssue_none_iff (m : List Char × List Char) :
    mkIssue m = none ↔ (searchDigits 8 m.1).bind parseDate8 = none := by
  unfold mkIssue
  cases hds : searchDigits 8 m.1 with
  | none => simp
  | some ds =>
    cases hd : parseDate8 ds with
    | none => simp [hd]
    | some d => simp [hd]

theorem parse_foldl (l : List (List Char × List Char)) :
    ∀ acc : List Issue,
      l.foldl (fun issues m => match mkIssue m with
        | some i => issues ++ [i]
        | none => issues) acc = acc ++ l.filterMap mkIssue := by
  induction l with
  | nil => intro acc; simp
  | cons x xs ih => intro acc; cases h : mkIssue x <;> simp [h, ih]

theorem parse_issues_eq (html : String) :
    parse_issues html = (findAnchors html.toList).filterMap mkIssue := by
  unfold parse_issues
  rw [parse_foldl]
  simp

theorem sections_foldl (l : List (List Char × List Char)) :
    ∀ acc : List String,
      l.foldl (fun acc m => match sectionOf m with
        | some s => acc ++ [s]
        | none => acc) acc = acc ++ l.filterMap sectionOf := by
  induction l with
  | nil => intro acc; simp
  | cons x xs ih => intro acc; cases h : sectionOf x <;> simp [h, ih]

theorem sectionOf_some {m : List Char × List Char} {s : String}
    (h : sectionOf m = some s) :
    ∃ ol, olSearch m.2 = some ol ∧
      s = "<h3>" ++ String.mk (pyStrip m.1) ++ "</h3>\n" ++ String.mk ol ∧
      pyStrip m.1 ∈ recognizedSections := by
  unfold sectionOf at h
  dsimp only at h
  split at h
  · rename_i hin
    cases holS : olSearch m.2 with
    | none => rw [holS] at h; exact absurd h (by simp)
    | some ol =>
      rw [holS] at h
      simp only [Option.some.injEq] at h
      exact ⟨ol, rfl, h.symm, hin⟩
  · exact absurd h (by simp)

theorem sectionOf_none_iff {m : List Char × List Char}
    (hshape : ∃ pre b mid, m.2 = olShape pre b mid) :
    sectionOf m = none ↔ pyStrip m.1 ∉ recognizedSections := by
  constructor
  · intro h hin
    unfold sectionOf at h
    dsimp only at h
    rw [if_pos hin] at h
    cases holS : olSearch m.2 with
    | some ol => rw [holS] at h; exact absurd h (by simp)
    | none =>
      obtain ⟨pre, b, mid, hm2⟩ := hshape
      rw [hm2] at holS
      exact olSearch_shape pre b mid holS
  · intro hnot
    unfold sectionOf
    dsimp only
    rw [if_neg hnot]

theorem string_len_zero {s : String} (h : s.length = 0) : s = "" := by
  cases s with
  | mk data =>
    cases data with
    | nil => rfl
    | cons a as => simp [String.length] at h

theorem sectionOf_some_ne_empty {m : List Char × List Char} {s : String}
    (h : sectionOf m = some s) : s ≠ "" := by
  obtain ⟨ol, -, hs, -⟩ := sectionOf_some h
  intro he
  rw [hs] at he
  have hlen := congrArg String.length he
  rw [String.length_append, String.length_append, String.length_append] at hlen
  have h4 : ("<h3>" : String).length = 4 := rfl
  have h0 : ("" : String).length = 0 := rfl
  omega

theorem joinNl_ne_empty {s : String} {rest : List String}
    (hs : s ≠ "") : joinNl (s :: rest) ≠ "" := by
  cases rest with
  | nil => simpa [joinNl]
  | cons t r =>
    rw [joinNl]
    intro h
    have hlen := congrArg String.length h
    rw [String.length_append, String.length_append] at hlen
    have h1 : ("\n" : String).length = 1 := rfl
    have h0 : ("" : String).length = 0 := rfl
    exact hs (string_len_zero (by omega))

theorem extract_content_no_body {html : String}
    (hb : bodySearch html.toList = none) : extract_content html = none := by
  unfold extract_content
  rw [hb]

theorem extract_content_body {html : String} {body : List Char}
    (hb : bodySearch html.toList = some body) :
    extract_content html =
      (if ((findSections body).filterMap sectionOf).isEmpty then none
       else some (joinNl ((findSections body).filterMap sectionOf))) := by
  unfold extract_content
  rw [hb]
  dsimp only
  rw [sections_foldl]
  simp

/-! ### Feed-builder lemmas -/

theorem serializeChildren_append (l1 l2 : List XNode) :
    serializeChildren (l1 ++ l2) = serializeChildren l1 ++ serializeChildren l2 := by
  induction l1 with
  | nil => simp [serializeChildren]
  | cons x xs ih =>
    rw [List.cons_append, serializeChildren, serializeChildren, ih,
      String.append_assoc]

theorem serializeNode_leaf {tag txt : String} (h : txt ≠ "") :
    serializeNode (xleaf tag txt) =
      "<" ++ tag ++ ">" ++ escCdata txt ++ "</" ++ tag ++ ">" := by
  unfold xleaf serializeNode
  simp [textTruthy, h, serializeChildren]

theorem fmtDate_gmt (d : Date) :
    ∃ pre, fmtDate d = pre ++ " 12:00:00 GMT" :=
  ⟨_, rfl⟩

theorem fmtDate_ne_empty (d : Date) : fmtDate d ≠ "" := by
  intro h
  obtain ⟨pre, hp⟩ := fmtDate_gmt d
  rw [hp] at h
  have hlen := congrArg String.length h
  rw [String.length_append] at hlen
  have h13 : (" 12:00:00 GMT" : String).length = 13 := rfl
  have h0 : ("" : String).length = 0 := rfl
  omega

/-! ### Claim theorems -/

set_option maxRecDepth 1000000

/-- C1 (code bug evidence): `generate_rss` does not embed a present,
non-empty `content` as literal markup: the serialiser escapes its
markup characters (`<h3>` becomes `&lt;h3&gt;`), although the code's
own comments promise CDATA wrapping and custom handling that never
happens.  The fallback half of the claim does hold: with `content`
absent the description is exactly the fallback sentence with
`date_text` substituted, as the second evaluation shows. -/
theorem c1_description_escaped_eval :
    generate_rss [exContentIssue] 50 = exEscapedFeedXml ∧
    escCdata "<h3>Articles</h3>\n<ol><li>x</li></ol>"
      ≠ "<h3>Articles</h3>\n<ol><li>x</li></ol>" ∧
    generate_rss [exNoContentIssue] 50 = exNoContentFeedXml := by
  refine ⟨by decide, by decide, by decide⟩

/-- C2 (counterexample): an anchor whose two 8-digit tokens differ
(`20250102` in the directory, `20250109` in the file name) is matched
by `parse_issues` and yields a descriptor, refuting the claim that the
two tokens must be equal for a match. -/
theorem c2_diff_tokens_counterexample :
    findAnchors exDiffTokens.toList
      = [("20250102/weeklypedia_20250109.html".toList, "x".toList)] ∧
    parse_issues exDiffTokens = [exDiffIssue] := by
  refine ⟨by decide, by decide⟩

/-- C2 (amended): every anchor matched by `parse_issues` has an
address of the shape `<8 digits>/weeklypedia_<8 digits>.html`, but the
two 8-digit tokens are matched independently and need not be equal. -/
theorem c2_match_shape (html : String) (p lab : List Char)
    (h : (p, lab) ∈ findAnchors html.toList) :
    ∃ d1 d2, p = d1 ++ "/weeklypedia_".toList ++ d2 ++ ".html".toList ∧
      d1.length = 8 ∧ d1.all Char.isDigit ∧
      d2.length = 8 ∧ d2.all Char.isDigit := by
  obtain ⟨l2, rest, hm⟩ := findAnchors_mem h
  exact (matchAnchorAt_some hm).1

/-- C2 witness: the amended shape property evaluated on the concrete
index with two differing tokens. -/
theorem c2_match_shape_witness :
    ("20250102/weeklypedia_20250109.html".toList, "x".toList)
        ∈ findAnchors exDiffTokens.toList ∧
    ∃ d1 d2, "20250102/weeklypedia_20250109.html".toList
        = d1 ++ "/weeklypedia_".toList ++ d2 ++ ".html".toList ∧
      d1.length = 8 ∧ d1.all Char.isDigit ∧
      d2.length = 8 ∧ d2.all Char.isDigit :=
  ⟨by decide, c2_match_shape exDiffTokens
    "20250102/weeklypedia_20250109.html".toList "x".toList (by decide)⟩

/-- C3 (counterexample): for the anchor whose visible label is
`" Jan 2, 2025 "` (with surrounding spaces), the emitted descriptor's
`date_text` is the trimmed `"Jan 2, 2025"`, not the raw label,
refuting the claim that label whitespace is preserved in `dateText`. -/
theorem c3_raw_label_counterexample :
    (findAnchors exPaddedLabel.toList).map Prod.snd = [" Jan 2, 2025 ".toList] ∧
    (parse_issues exPaddedLabel).map Issue.date_text = ["Jan 2, 2025"] ∧
    ("Jan 2, 2025" : String) ≠ " Jan 2, 2025 " := by
  refine ⟨by decide, by decide, by decide⟩

/-- C3 (amended): every descriptor's `date_text` equals the matched
label after `str.strip()` — the same trimming used for the title. -/
theorem c3_date_text_trimmed (html : String) (i : Issue)
    (h : i ∈ parse_issues html) :
    ∃ p lab, (p, lab) ∈ findAnchors html.toList ∧
      i.date_text = String.mk (pyStrip lab) ∧
      i.title = "Weeklypedia - " ++ String.mk (pyStrip lab) := by
  rw [parse_issues_eq] at h
  obtain ⟨m, hm, hmk⟩ := List.mem_filterMap.mp h
  obtain ⟨-, -, ht, hdt, -⟩ := mkIssue_some hmk
  exact ⟨m.1, m.2, by simpa using hm, hdt, ht⟩

/-- C3 witness: the trimming property evaluated on the concrete index
with a space-padded label. -/
theorem c3_date_text_trimmed_witness :
    ∃ p lab, (p, lab) ∈ findAnchors exPaddedLabel.toList ∧
      exPaddedIssue.date_text = String.mk (pyStrip lab) ∧
      exPaddedIssue.title = "Weeklypedia - " ++ String.mk (pyStrip lab) :=
  c3_date_text_trimmed exPaddedLabel exPaddedIssue (by decide)

/-- C4: `parse_issues` is the anchor scan filtered through `mkIssue`
(one descriptor per match, siblings independent, no exception path);
`mkIssue` rejects a match exactly when its date token fails the strict
`YYYYMMDD` parse; and every emitted descriptor carries a valid
calendar date. -/
theorem c4_invalid_date_dropped (html : String) :
    parse_issues html = (findAnchors html.toList).filterMap mkIssue ∧
    (∀ m : List Char × List Char,
      mkIssue m = none ↔ (searchDigits 8 m.1).bind parseDate8 = none) ∧
    (∀ i ∈ parse_issues html,
      1 ≤ i.date.year ∧ 1 ≤ i.date.month ∧ i.date.month ≤ 12 ∧
      1 ≤ i.date.day ∧ i.date.day ≤ daysInMonth i.date.year i.date.month) := by
  refine ⟨parse_issues_eq html, mkIssue_none_iff, ?_⟩
  intro i hi
  rw [parse_issues_eq] at hi
  obtain ⟨m, hm, hmk⟩ := List.mem_filterMap.mp hi
  obtain ⟨⟨ds, hds, hpd⟩, -, -, -, -⟩ := mkIssue_some hmk
  exact parseDate8_valid hpd

/-- C4 witness: on an index holding an invalid-date anchor
(`99999999`) next to a valid leap-day anchor, only the valid one
survives, and its date satisfies the calendar bounds. -/
theorem c4_invalid_date_dropped_witness :
    parse_issues exMixedValidity = [exLeapIssue] ∧
    exLeapIssue ∈ parse_issues exMixedValidity ∧
    (1 ≤ exLeapIssue.date.year ∧ 1 ≤ exLeapIssue.date.month ∧
      exLeapIssue.date.month ≤ 12 ∧ 1 ≤ exLeapIssue.date.day ∧
      exLeapIssue.date.day ≤ daysInMonth exLeapIssue.date.year exLeapIssue.date.month) :=
  ⟨by decide, by decide,
    (c4_invalid_date_dropped exMixedValidity).2.2 exLeapIssue (by decide)⟩

/-- C5: the descriptor list is exactly the match list filtered through
`mkIssue`, hence one descriptor per valid match in match order with no
sorting; the empty input yields the empty list; three anchors A, B, C
come out in that order; and a duplicated anchor yields two equal
descriptors (no deduplication). -/
theorem c5_order_and_no_dedup (html : String) :
    parse_issues html = (findAnchors html.toList).filterMap mkIssue ∧
    parse_issues "" = [] ∧
    (parse_issues exThreeAnchors).map Issue.title
      = ["Weeklypedia - A", "Weeklypedia - B", "Weeklypedia - C"] ∧
    (parse_issues exDuplicated).length = 2 ∧
    (parse_issues exDuplicated)[0]? = (parse_issues exDuplicated)[1]? := by
  refine ⟨parse_issues_eq html, by decide, by decide, by decide, by decide⟩

/-- C6: `extract_content` is total (the embedding is a Lean function,
mirroring that no exception escapes the Python function), returns
`none` exactly when the body region cannot be isolated or no
heading-plus-list occurrence has a recognised trimmed name, and in
every other case returns a non-empty fragment. -/
theorem c6_degrades_to_none (html : String) :
    (extract_content html = none ↔
      ∀ body, bodySearch html.toList = some body →
        ∀ m ∈ findSections body, pyStrip m.1 ∉ recognizedSections) ∧
    (∀ s, extract_content html = some s → s ≠ "") := by
  constructor
  · cases hb : bodySearch html.toList with
    | none =>
      constructor
      · intro hnone body hbody
        exact absurd hbody (by simp)
      · intro hall
        exact extract_content_no_body hb
    | some body =>
      rw [extract_content_body hb]
      constructor
      · intro hnone body2 hb2 m hm
        obtain rfl := Option.some.inj hb2
        have hemp : ((findSections body).filterMap sectionOf).isEmpty = true := by
          by_contra hne
          rw [if_neg (by simpa using hne)] at hnone
          exact absurd hnone (by simp)
        have hnil : (findSections body).filterMap sectionOf = [] :=
          List.isEmpty_iff.mp hemp
        have hall := List.filterMap_eq_nil_iff.mp hnil
        have hshape : ∃ pre b mid, m.2 = olShape pre b mid := by
          obtain ⟨l2, rest, hms⟩ := findSections_mem hm
          exact matchSectionAt_some hms
        exact (sectionOf_none_iff hshape).mp (hall m hm)
      · intro hall
        have hnil : (findSections body).filterMap sectionOf = [] := by
          rw [List.filterMap_eq_nil_iff]
          intro m hm
          have hshape : ∃ pre b mid, m.2 = olShape pre b mid := by
            obtain ⟨l2, rest, hms⟩ := findSections_mem hm
            exact matchSectionAt_some hms
          exact (sectionOf_none_iff hshape).mpr (hall body rfl m hm)
        simp [hnil]
  · intro s hs
    cases hb : bodySearch html.toList with
    | none =>
      rw [extract_content_no_body hb] at hs
      exact absurd hs (by simp)
    | some body =>
      rw [extract_content_body hb] at hs
      split at hs
      · exact absurd hs (by simp)
      · rename_i hne
        simp only [Option.some.injEq] at hs
        subst hs
        cases hfm : (findSections body).filterMap sectionOf with
        | nil => rw [hfm] at hne; simp at hne
        | cons x xs =>
          have hx : x ∈ (findSections body).filterMap sectionOf := by
            rw [hfm]; exact List.mem_cons_self _ _
          obtain ⟨m, hm, hmx⟩ := List.mem_filterMap.mp hx
          exact joinNl_ne_empty (sectionOf_some_ne_empty hmx)

/-- C6 witness: the concrete issue page yields a non-empty fragment,
and the non-emptiness is obtained from the theorem itself. -/
theorem c6_degrades_to_none_witness :
    extract_content exIssuePage = some exFragment ∧ exFragment ≠ "" :=
  ⟨by decide, (c6_degrades_to_none exIssuePage).2 exFragment (by decide)⟩

/-- C7: a returned fragment is exactly the line-break join, in match
order, of one wrapped section per kept occurrence; an occurrence is
kept exactly when its trimmed level-2 heading text is one of the three
recognised names (case-sensitive, exact), and each wrapped section is
the level-3 heading over just the re-isolated ordered-list element. -/
theorem c7_fragment_shape (html : String) (s : String)
    (h : extract_content html = some s) :
    ∃ body, bodySearch html.toList = some body ∧
      s = joinNl ((findSections body).filterMap sectionOf) ∧
      ∀ m ∈ findSections body,
        (sectionOf m = none ↔ pyStrip m.1 ∉ recognizedSections) ∧
        ∀ t, sectionOf m = some t →
          ∃ ol, olSearch m.2 = some ol ∧ pyStrip m.1 ∈ recognizedSections ∧
            t = "<h3>" ++ String.mk (pyStrip m.1) ++ "</h3>\n" ++ String.mk ol := by
  cases hb : bodySearch html.toList with
  | none =>
    rw [extract_content_no_body hb] at h
    exact absurd h (by simp)
  | some body =>
    refine ⟨body, rfl, ?_, ?_⟩
    · rw [extract_content_body hb] at h
      split at h
      · exact absurd h (by simp)
      · exact (Option.some.inj h).symm
    · intro m hm
      have hshape : ∃ pre b mid, m.2 = olShape pre b mid := by
        obtain ⟨l2, rest, hms⟩ := findSections_mem hm
        exact matchSectionAt_some hms
      refine ⟨sectionOf_none_iff hshape, ?_⟩
      intro t ht
      obtain ⟨ol, hol, hts, hin⟩ := sectionOf_some ht
      exact ⟨ol, hol, hin, hts⟩

/-- C7 witness: the fragment-shape property evaluated on the concrete
issue page (which kept `Articles` and `Discussions` and dropped
`Random Section`). -/
theorem c7_fragment_shape_witness :
    ∃ body, bodySearch exIssuePage.toList = some body ∧
      exFragment = joinNl ((findSections body).filterMap sectionOf) ∧
      ∀ m ∈ findSections body,
        (sectionOf m = none ↔ pyStrip m.1 ∉ recognizedSections) ∧
        ∀ t, sectionOf m = some t →
          ∃ ol, olSearch m.2 = some ol ∧ pyStrip m.1 ∈ recognizedSections ∧
            t = "<h3>" ++ String.mk (pyStrip m.1) ++ "</h3>\n" ++ String.mk ol :=
  c7_fragment_shape exIssuePage exFragment (by decide)

/-- C8: on a non-empty issue list the channel carries, after the four
static fields, a `lastBuildDate` element whose value is the first
issue's date under the fixed-time format (which always ends in
`12:00:00 GMT`); on the empty list the serialised document is exactly
the declaration, root, and the channel with the four static fields —
no `lastBuildDate`, no items.  The last conjunct shows a serialised
non-empty feed on a concrete issue. -/
theorem c8_last_build_date (issues : List Issue) (max_items : Nat) :
    (issues = [] → generate_rss issues max_items = emptyFeedXml) ∧
    (issues = [] → childrenOf (channelNode issues max_items) = staticChannelFields) ∧
    (∀ i rest, issues = i :: rest →
      childrenOf (channelNode issues max_items)
        = staticChannelFields ++ [xleaf "lastBuildDate" (fmtDate i.date)]
          ++ (issues.take max_items).map mkItem ∧
      ∃ pre, fmtDate i.date = pre ++ " 12:00:00 GMT") ∧
    generate_rss [exNoContentIssue] 50 = exNoContentFeedXml := by
  refine ⟨?_, ?_, ?_, by decide⟩
  · intro h
    subst h
    have hch : channelNode [] max_items = XNode.elem "channel" [] none staticChannelFields := by
      unfold channelNode staticChannelFields
      simp
    rw [generate_rss, rssTree, hch]
    decide
  · intro h
    subst h
    unfold channelNode childrenOf staticChannelFields
    simp
  · intro i rest h
    subst h
    constructor
    · unfold channelNode childrenOf staticChannelFields
      simp [List.append_assoc]
    · exact fmtDate_gmt i.date

/-- C8 witness: the empty case and the non-empty channel shape,
obtained from the theorem at concrete inputs. -/
theorem c8_last_build_date_witness :
    generate_rss [] 50 = emptyFeedXml ∧
    childrenOf (channelNode [exNoContentIssue] 3)
      = staticChannelFields ++ [xleaf "lastBuildDate" (fmtDate exNoContentIssue.date)]
        ++ (([exNoContentIssue] : List Issue).take 3).map mkItem ∧
    ∃ pre, fmtDate exNoContentIssue.date = pre ++ " 12:00:00 GMT" :=
  ⟨(c8_last_build_date [] 50).1 rfl,
   ((c8_last_build_date [exNoContentIssue] 3).2.2.1 exNoContentIssue [] rfl).1,
   ((c8_last_build_date [exNoContentIssue] 3).2.2.1 exNoContentIssue [] rfl).2⟩

/-- C9: the channel contains exactly `min max_items issues.length`
item elements, namely the items of the first `max_items` issues in
sequence order; each item carries the issue's title, the link, a guid
identical to the link, the fixed-time pubDate of the issue's date, and
the description element; and every formatted date ends in the fixed
time of day. -/
theorem c9_item_truncation (issues : List Issue) (max_items : Nat) :
    ((childrenOf (channelNode issues max_items)).filter
        (fun n => tagOf n = "item"))
      = (issues.take max_items).map mkItem ∧
    ((childrenOf (channelNode issues max_items)).filter
        (fun n => tagOf n = "item")).length
      = min max_items issues.length ∧
    (∀ i : Issue, mkItem i = XNode.elem "item" [] none
      [ xleaf "title" i.title, xleaf "link" i.url, xleaf "guid" i.url
      , xleaf "pubDate" (fmtDate i.date), descriptionNode i ]) ∧
    (∀ d : Date, ∃ pre, fmtDate d = pre ++ " 12:00:00 GMT") := by
  have hmap : ∀ l : List Issue,
      (l.map mkItem).filter (fun n => tagOf n = "item") = l.map mkItem := by
    intro l
    rw [List.filter_eq_self]
    intro a ha
    obtain ⟨i2, -, rfl⟩ := List.mem_map.mp ha
    simp [mkItem, tagOf]
  have hfil : (childrenOf (channelNode issues max_items)).filter
      (fun n => tagOf n = "item") = (issues.take max_items).map mkItem := by
    cases issues with
    | nil =>
      unfold channelNode childrenOf
      simp [tagOf, xleaf]
    | cons i rest =>
      unfold channelNode childrenOf
      simp only [List.filter_append, hmap]
      simp [tagOf, xleaf]
  refine ⟨hfil, ?_, fun i => rfl, fmtDate_gmt⟩
  rw [hfil]
  simp [List.length_take]

/-- C9 witness: with four issues and `max_items = 3`, exactly three
item elements appear, per the theorem at a concrete input. -/
theorem c9_item_truncation_witness :
    ((childrenOf (channelNode
        [exNoContentIssue, exNoContentIssue, exNoContentIssue, exNoContentIssue] 3)).filter
        (fun n => tagOf n = "item")).length = min 3 4 :=
  (c9_item_truncation
    [exNoContentIssue, exNoContentIssue, exNoContentIssue, exNoContentIssue] 3).2.1

/-- C10: for every matched anchor that yields a descriptor, the
descriptor's date is parsed from the first 8-digit token of the path
(the directory component) — `re.search` never reaches the file-name
token — while the url is the fixed base address concatenated with the
full matched path, including a possibly different file-name token. -/
theorem c10_date_from_first_token (html : String) (p lab : List Char) (i : Issue)
    (hmem : (p, lab) ∈ findAnchors html.toList)
    (hmk : mkIssue (p, lab) = some i) :
    ∃ d1 d2,
      p = d1 ++ "/weeklypedia_".toList ++ d2 ++ ".html".toList ∧
      d1.length = 8 ∧ d2.length = 8 ∧
      searchDigits 8 p = some d1 ∧
      parseDate8 d1 = some i.date ∧
      i.url = BASE_URL ++ String.mk p := by
  obtain ⟨l2, rest, hm⟩ := findAnchors_mem hmem
  obtain ⟨⟨d1, d2, hp, h1len, h1dig, h2len, h2dig⟩, -⟩ := matchAnchorAt_some hm
  have hp2 : p = d1 ++ "/weeklypedia_".toList ++ d2 ++ ".html".toList := hp
  have hsearch : searchDigits 8 p = some d1 := by
    rw [hp2]
    have hs := @searchDigits_head d1
      ("/weeklypedia_".toList ++ d2 ++ ".html".toList) h1len h1dig
    simpa [List.append_assoc] using hs
  obtain ⟨⟨ds, hds, hpd⟩, hurl, -, -, -⟩ := mkIssue_some hmk
  have hds0 : searchDigits 8 p = some ds := hds
  have hurl0 : i.url = BASE_URL ++ String.mk p := hurl
  have hds2 : ds = d1 := by
    rw [hsearch] at hds0
    exact (Option.some.inj hds0).symm
  rw [hds2] at hpd
  exact ⟨d1, d2, hp2, h1len, h2len, hsearch, hpd, hurl0⟩

/-- C10 witness: on the index whose anchor has directory token
`20250102` and file token `20250109`, the date comes from `20250102`
and the url keeps the full path. -/
theorem c10_date_from_first_token_witness :
    ∃ d1 d2,
      "20250102/weeklypedia_20250109.html".toList
        = d1 ++ "/weeklypedia_".toList ++ d2 ++ ".html".toList ∧
      d1.length = 8 ∧ d2.length = 8 ∧
      searchDigits 8 "20250102/weeklypedia_20250109.html".toList = some d1 ∧
      parseDate8 d1 = some exDiffIssue.date ∧
      exDiffIssue.url = BASE_URL ++ String.mk "20250102/weeklypedia_20250109.html".toList :=
  c10_date_from_first_token exDiffTokens
    "20250102/weeklypedia_20250109.html".toList "x".toList exDiffIssue
    (by decide) (by decide)
